import Mathlib

/-!
# Release resolution and asset enumeration of the distillery backends

A shallow embedding of `pkg/source/github.go` and `pkg/source/gitlab.go`
(release resolution, asset enumeration, identity accessors) and of the
scoring engine exercised by `pkg/score/score_test.go`.

Conventions of the embedding.

* A Go `error` is `Option String`: `none` is `nil`, `some m` is an error whose
  `Error()` text is `m`.
* The remote API is a record of pure functions (one per endpoint); the client
  carries a ghost log `calls` of the requests issued so far, so that "does not
  consult the listing" is a statement about the log.
* Accessors of the go-github value types (`GetTagName`, `GetName`,
  `GetPrerelease`, `GetID`) are nil-safe getters; a release or asset value is
  modelled by the results of its getters, and the entries of a listing are
  values (no nil entry).
* The text of a failed request decides whether it is a "not found": the code
  tests `strings.Contains(err.Error(), "404 Not Found")`.
* Go `int`/`int64` values are `Int`.
* The library functions `filepath.Join`, `filepath.Clean` and `filepath.Base`
  are embedded for slash-separated paths, element by element.
-/

set_option autoImplicit false

namespace Distillery

/-! ## Go standard-library string helpers -/

/-- Go `strings.HasPrefix` on character lists. -/
def hasPrefixChars : List Char → List Char → Bool
  | _, [] => true
  | [], _ :: _ => false
  | c :: cs, p :: ps => c == p && hasPrefixChars cs ps

/-- Go `strings.Contains` on character lists. -/
def containsChars : List Char → List Char → Bool
  | [], sub => hasPrefixChars [] sub
  | c :: cs, sub => hasPrefixChars (c :: cs) sub || containsChars cs sub

/-- Go `strings.Contains(s, substr)`. -/
def Contains (s substr : String) : Bool :=
  containsChars s.data substr.data

/-- Go `strings.TrimPrefix(s, prefix)`: `s` without the leading `pre` when it
starts with it, `s` itself otherwise. -/
def TrimPrefix (s pre : String) : String :=
  if hasPrefixChars s.data pre.data then ⟨s.data.drop pre.data.length⟩ else s

/-- Go `strings.Split(s, "/")` on character lists. -/
def splitSlash : List Char → List (List Char)
  | [] => [[]]
  | c :: cs =>
    if c = '/' then [] :: splitSlash cs
    else
      match splitSlash cs with
      | [] => [[c]]
      | h :: t => (c :: h) :: t

/-- Go `strings.Join(elems, "/")` on character lists. -/
def joinSlash : List (List Char) → List Char
  | [] => []
  | [a] => a
  | a :: b :: rest => a ++ '/' :: joinSlash (b :: rest)

/-- One path element of `filepath.Clean`; the kept elements are a stack, last
kept element first. -/
def cleanStep (rooted : Bool) (stack : List (List Char)) (c : List Char) : List (List Char) :=
  if c = [] ∨ c = ['.'] then stack
  else if c = ['.', '.'] then
    match stack with
    | [] => if rooted then [] else [c]
    | top :: below => if top = ['.', '.'] then c :: stack else below
  else c :: stack

/-- Go `filepath.Clean` (slash-separated paths): empty and `.` elements are
dropped, a `..` element removes the element before it, is dropped at the root
and is kept at the start of a path that is not rooted; an empty result is `.`. -/
def Clean (path : String) : String :=
  if path = "" then "."
  else
    let rooted := path.data.head? == some '/'
    let stack := (splitSlash path.data).foldl (cleanStep rooted) []
    if rooted then ⟨'/' :: joinSlash stack.reverse⟩
    else if stack = [] then "." else ⟨joinSlash stack.reverse⟩

/-- Go `filepath.Join` (slash-separated paths): the elements from the first
non-empty one on are joined with slashes and the result is cleaned; no
non-empty element gives the empty path. -/
def Join (elem : List String) : String :=
  let rest := elem.dropWhile (fun e => e = "")
  if rest = [] then "" else Clean ⟨joinSlash (rest.map String.data)⟩

/-! ## GitHub backend: data model -/

/-- Modelled from the spec: the constant `VersionLatest` is declared outside the
given sources; it is the reserved sentinel "latest" that marks "resolve the
newest available release". -/
def VersionLatest : String := "latest"

/-- The getters of `github.RepositoryRelease` used by the backend. -/
structure RepositoryRelease where
  ID : Int
  TagName : String
  Name : String
  Prerelease : Bool
  deriving DecidableEq, Repr

/-- The getters of `github.ReleaseAsset` used by the backend. -/
structure ReleaseAsset where
  ID : Int
  Name : String
  deriving DecidableEq, Repr

/-- Pagination parameters `github.ListOptions`. -/
structure ListOptions where
  Page : Int
  PerPage : Int
  deriving DecidableEq, Repr

/-- The part of `github.Response` read by the backend. -/
structure Response where
  NextPage : Int
  deriving DecidableEq, Repr

/-- A request issued to the GitHub API (ghost log entry). -/
inductive Call where
  | getLatestRelease (owner repo : String)
  | listReleases (owner repo : String) (opts : Option ListOptions)
  | listReleaseAssets (owner repo : String) (id : Int) (opts : ListOptions)
  deriving DecidableEq, Repr

/-- The GitHub API client: what each endpoint answers, and the log of the
requests issued so far. -/
structure Client where
  latest : String → String → Option RepositoryRelease × Option String
  releases : String → String → Option ListOptions →
    List RepositoryRelease × Response × Option String
  assets : String → String → Int → ListOptions →
    List ReleaseAsset × Response × Option String
  calls : List Call

/-- The call `client.Repositories.GetLatestRelease(ctx, owner, repo)`. -/
def Client.GetLatestRelease (c : Client) (owner repo : String) :
    Client × Option RepositoryRelease × Option String :=
  ({ c with calls := c.calls ++ [Call.getLatestRelease owner repo] }, c.latest owner repo)

/-- The call `client.Repositories.ListReleases(ctx, owner, repo, opts)`. -/
def Client.ListReleases (c : Client) (owner repo : String) (opts : Option ListOptions) :
    Client × List RepositoryRelease × Response × Option String :=
  ({ c with calls := c.calls ++ [Call.listReleases owner repo opts] }, c.releases owner repo opts)

/-- The call `client.Repositories.ListReleaseAssets(ctx, owner, repo, id, opts)`. -/
def Client.ListReleaseAssets (c : Client) (owner repo : String) (id : Int)
    (opts : ListOptions) : Client × List ReleaseAsset × Response × Option String :=
  ({ c with calls := c.calls ++ [Call.listReleaseAssets owner repo id opts] },
    c.assets owner repo id opts)

/-- Modelled from the spec: `asset.New(name, displayName, os, arch, version)` of
`pkg/asset` is not among the sources; an asset "is wrapped with the filename ...
and provider-specific retrieval metadata", so the record keeps the arguments of
the constructor. -/
structure Asset where
  Name : String
  DisplayName : String
  OS : String
  Arch : String
  Version : String
  deriving DecidableEq, Repr

/-- A `GitHubAsset`: the generic asset and the API asset it wraps (the back
pointer to the owning backend is left out). -/
structure GitHubAsset where
  Asset : Asset
  ReleaseAsset : ReleaseAsset
  deriving DecidableEq, Repr

/-- The fields of `Source.Options` read by the backend; `IncludePreReleases` is
`Settings["include-pre-releases"].(bool)`, the setting being present and boolean
(the type assertion holds). -/
structure Options where
  DownloadsDir : String
  MetadataDir : String
  IncludePreReleases : Bool

/-- The `GitHub` backend value (with the embedded `Source`: options, target
platform and the assets found so far). -/
structure GitHub where
  Options : Options
  OS : String
  Arch : String
  Assets : List GitHubAsset
  client : Client
  Version : String
  Owner : String
  Repo : String
  Release : Option RepositoryRelease

namespace GitHub

/-- The accessor `GetSource`. -/
def GetSource (_s : GitHub) : String := "github"

/-- The accessor `GetOwner`. -/
def GetOwner (s : GitHub) : String := s.Owner

/-- The accessor `GetRepo`. -/
def GetRepo (s : GitHub) : String := s.Repo

/-- Modelled from the spec: `GetOS` belongs to the embedded `Source`, declared
outside the given sources; it is the target operating system of the request. -/
def GetOS (s : GitHub) : String := s.OS

/-- Modelled from the spec: `GetArch` belongs to the embedded `Source`, declared
outside the given sources; it is the target architecture of the request. -/
def GetArch (s : GitHub) : String := s.Arch

/-- The accessor `GetApp`: `fmt.Sprintf("%s/%s", s.Owner, s.Repo)`. -/
def GetApp (s : GitHub) : String := s.Owner ++ "/" ++ s.Repo

/-- The accessor `GetDownloadsDir`: `filepath.Join` of the downloads root, the
source, the owner, the repository and `Version`. -/
def GetDownloadsDir (s : GitHub) : String :=
  Join [s.Options.DownloadsDir, s.GetSource, s.GetOwner, s.GetRepo, s.Version]

/-- The accessor `GetID`: `strings.Join([source, owner, repo, os, arch], "-")`. -/
def GetID (s : GitHub) : String :=
  "-".intercalate [s.GetSource, s.GetOwner, s.GetRepo, s.GetOS, s.GetArch]

/-- The name of the HTTP cache file, `fmt.Sprintf("cache-%s", s.GetID())`. -/
def cacheFile (s : GitHub) : String := "cache-" ++ s.GetID

/-- The `for _, r := range releases` loop of `FindRelease`: the state is the
pair (Version, release); the walk stops at the first entry taken. -/
def findLoop (includePreReleases : Bool) :
    List RepositoryRelease → String → Option RepositoryRelease →
      String × Option RepositoryRelease
  | [], version, release => (version, release)
  | r :: rest, version, release =>
    if includePreReleases = true ∧ r.Prerelease = true then
      (TrimPrefix r.TagName "v", some r)
    else if r.TagName = version ∨ r.Name = "v" ++ version then
      (version, some r)
    else
      findLoop includePreReleases rest version release

/-- Lines 130-138 of `FindRelease`: fail when no release was selected, store the
selected one otherwise. -/
def finish (s : GitHub) (release : Option RepositoryRelease) : GitHub × Option String :=
  match release with
  | none => (s, some "release not found")
  | some r => ({ s with Release := some r }, none)

/-- Lines 110-138 of `FindRelease`: when no release is at hand, one
`ListReleases` call with `nil` options, then the walk over its answer. -/
def resolve (s : GitHub) (release : Option RepositoryRelease) : GitHub × Option String :=
  match release with
  | some r => finish s (some r)
  | none =>
    let res := s.client.ListReleases s.GetOwner s.GetRepo none
    let s1 := { s with client := res.1 }
    match res.2.2.2 with
    | some e => (s1, some e)
    | none =>
      let found := findLoop s1.Options.IncludePreReleases res.2.1 s1.Version none
      finish { s1 with Version := found.1 } found.2

/-- Lines 105-107 of `FindRelease`: a release returned by the direct call sets
the version. -/
def setLatest (s : GitHub) (release : Option RepositoryRelease) : GitHub :=
  match release with
  | some r => { s with Version := TrimPrefix r.TagName "v" }
  | none => s

/-- The method `FindRelease`: the updated backend value and the returned error. -/
def FindRelease (s : GitHub) : GitHub × Option String :=
  if s.Version = VersionLatest then
    let res := s.client.GetLatestRelease s.GetOwner s.GetRepo
    let s1 := { s with client := res.1 }
    match res.2.2 with
    | some e =>
      if Contains e "404 Not Found" then resolve (setLatest s1 res.2.1) res.2.1
      else (s1, some e)
    | none => resolve (setLatest s1 res.2.1) res.2.1
  else
    resolve s none

/-- The value of `s.Release.GetID()`: the nil-safe getter. -/
def releaseID (s : GitHub) : Int :=
  match s.Release with
  | some r => r.ID
  | none => 0

/-- Lines 153-159 of `GetReleaseAssets`: wrap one API asset. -/
def wrapAsset (s : GitHub) (a : ReleaseAsset) : GitHubAsset :=
  { Asset := { Name := a.Name, DisplayName := "", OS := s.GetOS, Arch := s.GetArch,
               Version := s.Version },
    ReleaseAsset := a }

/-- Lines 168-172 of `GetReleaseAssets`. -/
def checkAssets (s : GitHub) : GitHub × Option String :=
  if s.Assets.length = 0 then (s, some "no assets found") else (s, none)

/-- The `for` loop of `GetReleaseAssets` followed by the final check; one unit of
fuel per page request, `none` when the fuel runs out. -/
def assetsLoop : Nat → GitHub → ListOptions → Option (GitHub × Option String)
  | 0, _, _ => none
  | fuel + 1, s, params =>
    let res := s.client.ListReleaseAssets s.GetOwner s.GetRepo s.releaseID params
    let s1 := { s with client := res.1 }
    match res.2.2.2 with
    | some e => some (s1, some e)
    | none =>
      let s2 := { s1 with Assets := s1.Assets ++ res.2.1.map (wrapAsset s1) }
      if res.2.2.1.NextPage = 0 then some (checkAssets s2)
      else assetsLoop fuel s2 { params with Page := res.2.2.1.NextPage }

/-- The method `GetReleaseAssets`, with `PerPage: 100` and the zero-valued `Page`. -/
def GetReleaseAssets (fuel : Nat) (s : GitHub) : Option (GitHub × Option String) :=
  assetsLoop fuel s { Page := 0, PerPage := 100 }

end GitHub

/-! ## GitLab backend -/

/-- Go `filepath.Base` (slash-separated paths). -/
def Base (path : String) : String :=
  if path = "" then "."
  else
    let stripped := (path.data.reverse.dropWhile (fun c => c == '/')).reverse
    let last := (stripped.reverse.takeWhile (fun c => c != '/')).reverse
    if last = [] then "/" else ⟨last⟩

/-- A link of a GitLab release (`Release.Assets.Links` entry). -/
structure GitLabLink where
  Name : String
  URL : String
  deriving DecidableEq, Repr

/-- The part of the GitLab client's release payload read by the backend; `Links`
is `Assets.Links`. -/
structure GitLabRelease where
  TagName : String
  Links : List GitLabLink
  deriving DecidableEq, Repr

/-- The GitLab API client: `GetLatestRelease(ctx, slug)` and
`GetRelease(ctx, slug, version)`. -/
structure GitLabClient where
  GetLatestRelease : String → Option GitLabRelease × Option String
  GetRelease : String → String → Option GitLabRelease × Option String

/-- A `GitLabAsset`: the generic asset and the link it wraps. -/
structure GitLabAsset where
  Asset : Asset
  Link : GitLabLink
  deriving DecidableEq, Repr

/-- The `GitLab` backend value (with the embedded provider: downloads root,
target platform and the assets found so far). -/
structure GitLab where
  DownloadsPath : String
  OS : String
  Arch : String
  Assets : List GitLabAsset
  client : GitLabClient
  Owner : String
  Repo : String
  Version : String
  Release : Option GitLabRelease

namespace GitLab

/-- The accessor `GetSource`: the constant `GitLabSource`. -/
def GetSource (_s : GitLab) : String := "gitlab"

/-- The accessor `GetOwner`. -/
def GetOwner (s : GitLab) : String := s.Owner

/-- The accessor `GetRepo`. -/
def GetRepo (s : GitLab) : String := s.Repo

/-- Modelled from the spec: `GetOS` belongs to the embedded provider, declared
outside the given sources; it is the target operating system of the request. -/
def GetOS (s : GitLab) : String := s.OS

/-- Modelled from the spec: `GetArch` belongs to the embedded provider, declared
outside the given sources; it is the target architecture of the request. -/
def GetArch (s : GitLab) : String := s.Arch

/-- The accessor `GetApp`: `fmt.Sprintf("%s/%s", s.Owner, s.Repo)`. -/
def GetApp (s : GitLab) : String := s.Owner ++ "/" ++ s.Repo

/-- The accessor `GetID`: `fmt.Sprintf("%s/%s/%s", source, owner, repo)`. -/
def GetID (s : GitLab) : String :=
  s.GetSource ++ "/" ++ s.GetOwner ++ "/" ++ s.GetRepo

/-- The name of the HTTP cache file, `fmt.Sprintf("cache-%s", s.GetID())`. -/
def cacheFile (s : GitLab) : String := "cache-" ++ s.GetID

/-- The accessor `GetVersion`; `unknown` stands for the constant `common.Unknown`. -/
def GetVersion (unknown : String) (s : GitLab) : String :=
  match s.Release with
  | none => unknown
  | some r => TrimPrefix r.TagName "v"

/-- The accessor `GetDownloadsDir`: `filepath.Join` of the downloads root, the
source, the owner, the repository and `Version`. -/
def GetDownloadsDir (s : GitLab) : String :=
  Join [s.DownloadsPath, s.GetSource, s.GetOwner, s.GetRepo, s.Version]

/-- Lines 94-100 of `sourceRun`: wrap one link. -/
def wrapLink (s : GitLab) (a : GitLabLink) : GitLabAsset :=
  { Asset := { Name := Base a.URL, DisplayName := "", OS := s.GetOS, Arch := s.GetArch,
               Version := s.Version },
    Link := a }

/-- Lines 90-102 of `sourceRun`. -/
def collect (s : GitLab) : GitLab × Option String :=
  match s.Release with
  | none => (s, some ("no release found for " ++ s.GetApp ++ " version " ++ s.Version))
  | some rel => ({ s with Assets := s.Assets ++ rel.Links.map (wrapLink s) }, none)

/-- The method `sourceRun` from line 73 on (the client set-up is left out): the updated
backend value and the returned error; `none` is the nil dereference of
`release.TagName` when the latest call answers `(nil, nil)`. -/
def sourceRun (s : GitLab) : Option (GitLab × Option String) :=
  if s.Version = VersionLatest then
    let res := s.client.GetLatestRelease (s.Owner ++ "/" ++ s.Repo)
    match res.2 with
    | some e => some (s, some e)
    | none =>
      match res.1 with
      | none => none
      | some release =>
        some (collect { s with Version := release.TagName, Release := some release })
  else
    let res := s.client.GetRelease (s.Owner ++ "/" ++ s.Repo) s.Version
    match res.2 with
    | some e => some (s, some e)
    | none => some (collect { s with Release := res.1 })

/-- The method `PreRun`: `sourceRun`, its error passed on. -/
def PreRun (s : GitLab) : Option (GitLab × Option String) :=
  match s.sourceRun with
  | none => none
  | some (s1, some e) => some (s1, some e)
  | some (s1, none) => some (s1, none)

end GitLab

/-! ## Scoring engine -/

namespace score

/-- The match configuration of `score_test.go`. -/
structure Options where
  OS : List String := []
  Arch : List String := []
  Extensions : List String := []
  Names : List String := []

/-- A scored candidate of `score_test.go`. -/
structure Sorted where
  Key : String
  Value : Int
  deriving DecidableEq, Repr

/-- Case normalisation of a token. -/
def lower (s : String) : List Char := s.data.map Char.toLower

/-- Some token of `tokens` occurs in `name`, case-insensitively. -/
def matchesAny (name : String) (tokens : List String) : Bool :=
  tokens.any (fun t => containsChars (lower name) (lower t))

/-- Some literal of `literals` occurs in `name`. -/
def containsLiteral (name : String) (literals : List String) : Bool :=
  literals.any (fun t => containsChars name.data t.data)

/-- The extension of a filename: what follows its last dot, nothing when it has
no dot. -/
def extension (name : String) : List Char :=
  if name.data.contains '.' then
    ((name.data.reverse.takeWhile (fun c => c != '.')).reverse).map Char.toLower
  else []

/-- Modelled from the spec: the extension row group of the table of section 4.1
(`score.go` is not among the sources): nothing for a missing or `unknown`
extension, 40 for a listed key file (`pem`, `pub`), 20 for another listed
extension, nothing for an extension that is not listed. -/
def extensionScore (name : String) (opts : Options) : Int :=
  let ext := extension name
  if ext = [] ∨ ext = "unknown".data then 0
  else if (opts.Extensions.map lower).contains ext then
    if ext = "pem".data ∨ ext = "pub".data then 40 else 20
  else 0

/-- Modelled from the spec: the additive score of one filename, section 4.1
(`score.go` is not among the sources). -/
def scoreName (name : String) (opts : Options) : Int :=
  (if matchesAny name opts.OS then 35 else 0)
  + (if matchesAny name opts.Arch then 35 else 0)
  + extensionScore name opts
  + (if containsLiteral name opts.Names then 10 else 0)

/-- Modelled from the spec: `Score(names, opts)` of `score.go`, which is not
among the sources: "ordered sequence of candidate filenames + a configuration
of match criteria → ordered sequence of (filename, score) pairs, one per input,
same order as input"; the function walks the names and appends one pair each. -/
def Score : List String → Options → List Sorted
  | [], _ => []
  | name :: rest, opts => { Key := name, Value := scoreName name opts } :: Score rest opts

end score

/-! ## Specification vocabulary -/

/-- The matching rule of the listing walk, in the words of the specification:
pre-releases are permitted and the release is marked pre-release, or the tag
equals the version, or the display name equals `"v" ++ version`. -/
def MatchesRule (includePreReleases : Bool) (version : String) (r : RepositoryRelease) : Prop :=
  (includePreReleases = true ∧ r.Prerelease = true) ∨ r.TagName = version ∨
    r.Name = "v" ++ version

instance (incl : Bool) (version : String) (r : RepositoryRelease) :
    Decidable (MatchesRule incl version r) := by
  unfold MatchesRule; infer_instance

/-- The entry `r` is the first entry of `L`, in listing order, that satisfies `P`. -/
def IsFirstMatch (P : RepositoryRelease → Prop) (L : List RepositoryRelease)
    (r : RepositoryRelease) : Prop :=
  ∃ before after, L = before ++ r :: after ∧ (∀ x ∈ before, ¬ P x) ∧ P r

/-- The release answered by the direct latest-release call, when `FindRelease`
issues it (the version is the sentinel) and it answers one. -/
def DirectAnswer (s : GitHub) : Option RepositoryRelease :=
  if s.Version = VersionLatest then (s.client.latest s.Owner s.Repo).1 else none

/-- The value of `Version` after a successful `FindRelease` that started from `s`
and stored `r`: the tag of `r` without a leading "v" when `r` is the answer of
the direct latest call or was taken as a permitted pre-release, the requested
version otherwise. -/
def VersionAfter (s : GitHub) (r : RepositoryRelease) : String :=
  if (DirectAnswer s).isSome = true ∨
      (s.Options.IncludePreReleases = true ∧ r.Prerelease = true) then
    TrimPrefix r.TagName "v"
  else s.Version

/-- A plain path element: not empty, without a slash, and neither `.` nor `..`. -/
def PathElement (v : String) : Prop :=
  v ≠ "" ∧ '/' ∉ v.data ∧ v ≠ "." ∧ v ≠ ".."

instance (v : String) : Decidable (PathElement v) := by
  unfold PathElement; infer_instance

/-- The string `s` does not contain the character `c`. -/
def FreeOf (c : Char) (s : String) : Prop := c ∉ s.data

instance (c : Char) (s : String) : Decidable (FreeOf c s) := by
  unfold FreeOf; infer_instance

/-- The answer of the asset listing of the release of `s` for page `p` (page
size 100). -/
def pageAnswer (s : GitHub) (p : Int) : List ReleaseAsset × Response × Option String :=
  s.client.assets s.Owner s.Repo s.releaseID { Page := p, PerPage := 100 }

/-- Starting at page `p`, every request succeeds and the `NextPage` values are
the non-zero pages `rest`, in this order, followed by 0: the pages of the
listing are `p :: rest`. -/
def IsPageChain (answer : Int → List ReleaseAsset × Response × Option String) :
    Int → List Int → Prop
  | p, [] => (answer p).2.2 = none ∧ (answer p).2.1.NextPage = 0
  | p, q :: rest =>
    (answer p).2.2 = none ∧ (answer p).2.1.NextPage = q ∧ q ≠ 0 ∧ IsPageChain answer q rest

/-- The concatenation of the pages `pages` of the listing, page by page. -/
def listedAssets (answer : Int → List ReleaseAsset × Response × Option String)
    (pages : List Int) : List ReleaseAsset :=
  (pages.map fun p => (answer p).1).flatten

/-! ## Sample inputs -/

/-- A stable release `v1.0.0`. -/
def relStable : RepositoryRelease :=
  { ID := 1, TagName := "v1.0.0", Name := "v1.0.0", Prerelease := false }

/-- A rolling release tagged `latest`. -/
def relRolling : RepositoryRelease :=
  { ID := 2, TagName := "latest", Name := "rolling", Prerelease := false }

/-- An older rolling release, also tagged `latest`. -/
def relRollingOld : RepositoryRelease :=
  { ID := 3, TagName := "latest", Name := "rolling (old)", Prerelease := false }

/-- A pre-release `v2.0.0-beta`. -/
def relBeta : RepositoryRelease :=
  { ID := 4, TagName := "v2.0.0-beta", Name := "v2.0.0-beta", Prerelease := true }

/-- A stable release `2.0.0`. -/
def relNew : RepositoryRelease :=
  { ID := 5, TagName := "2.0.0", Name := "v2.0.0", Prerelease := false }

/-- The text of a 404 answer of the API. -/
def notFoundText : String :=
  "GET https://api.github.com/repos/acme/tool/releases/latest: 404 Not Found []"

/-- The text of a 500 answer of the API. -/
def serverErrorText : String :=
  "GET https://api.github.com/repos/acme/tool/releases/latest: 500 Internal Server Error []"

/-- The listing of the sample repository. -/
def sampleListing : List RepositoryRelease := [relStable, relRolling, relRollingOld]

/-- A repository without a direct latest release. -/
def client404 : Client :=
  { latest := fun _ _ => (none, some notFoundText),
    releases := fun _ _ _ => (sampleListing, { NextPage := 0 }, none),
    assets := fun _ _ _ _ => ([], { NextPage := 0 }, none),
    calls := [] }

/-- A repository whose direct latest release is `relStable`. -/
def clientLatest : Client :=
  { latest := fun _ _ => (some relStable, none),
    releases := fun _ _ _ => (sampleListing, { NextPage := 0 }, none),
    assets := fun _ _ _ _ => ([], { NextPage := 0 }, none),
    calls := [] }

/-- An API that answers 500 to the direct call. -/
def clientServerError : Client :=
  { latest := fun _ _ => (none, some serverErrorText),
    releases := fun _ _ _ => (sampleListing, { NextPage := 0 }, none),
    assets := fun _ _ _ _ => ([], { NextPage := 0 }, none),
    calls := [] }

/-- An API whose listing call fails. -/
def clientListingFails : Client :=
  { latest := fun _ _ => (none, some notFoundText),
    releases := fun _ _ _ => ([], { NextPage := 0 }, some "403 rate limit exceeded"),
    assets := fun _ _ _ _ => ([], { NextPage := 0 }, none),
    calls := [] }

/-- A repository whose releases span two pages: `relStable` on the first page
(the answer to `nil` options), `relNew` on page 2. -/
def clientTwoPages : Client :=
  { latest := fun _ _ => (none, some notFoundText),
    releases := fun _ _ opts =>
      match opts with
      | none => ([relStable], { NextPage := 2 }, none)
      | some o =>
        if o.Page = 2 then ([relNew], { NextPage := 0 }, none)
        else ([relStable], { NextPage := 2 }, none),
    assets := fun _ _ _ _ => ([], { NextPage := 0 }, none),
    calls := [] }

/-- A request for `acme/tool` on linux/amd64. -/
def sampleBackend (client : Client) (version : String) (includePreReleases : Bool) : GitHub :=
  { Options := { DownloadsDir := "/downloads", MetadataDir := "/metadata",
                 IncludePreReleases := includePreReleases },
    OS := "linux", Arch := "amd64", Assets := [], client := client,
    Version := version, Owner := "acme", Repo := "tool", Release := none }

/-- A GitLab release `v1.2.3` without links. -/
def gitlabEmptyRelease : GitLabRelease := { TagName := "v1.2.3", Links := [] }

/-- A GitLab project whose releases carry no links. -/
def gitlabClient : GitLabClient :=
  { GetLatestRelease := fun _ => (some gitlabEmptyRelease, none),
    GetRelease := fun _ _ => (some gitlabEmptyRelease, none) }

/-- A GitLab request for `acme/tool` on linux/amd64. -/
def sampleGitLab (version : String) : GitLab :=
  { DownloadsPath := "/downloads", OS := "linux", Arch := "amd64", Assets := [],
    client := gitlabClient, Owner := "acme", Repo := "tool", Version := version,
    Release := none }

/-- The sample GitLab request for `v1.2.3` after its release was looked up. -/
def gitlabResolved : GitLab :=
  { sampleGitLab "v1.2.3" with Release := some gitlabEmptyRelease }

/-- A GitHub target whose owner holds a hyphen. -/
def dashedOwner : GitHub :=
  { sampleBackend client404 "latest" false with Owner := "acme-dev", Repo := "tool" }

/-- A GitHub target whose repository holds a hyphen. -/
def dashedRepo : GitHub :=
  { sampleBackend client404 "latest" false with Owner := "acme", Repo := "dev-tool" }

/-- A linux archive. -/
def assetLinux : ReleaseAsset := { ID := 11, Name := "tool-linux-amd64.tar.gz" }

/-- A darwin archive. -/
def assetDarwin : ReleaseAsset := { ID := 12, Name := "tool-darwin-arm64.tar.gz" }

/-- A checksum manifest. -/
def assetSums : ReleaseAsset := { ID := 13, Name := "checksums.txt" }

/-- A release whose assets span two pages: page 2 follows the first page. -/
def clientAssetPages : Client :=
  { latest := fun _ _ => (some relStable, none),
    releases := fun _ _ _ => (sampleListing, { NextPage := 0 }, none),
    assets := fun _ _ _ o =>
      if o.Page = 2 then ([assetSums], { NextPage := 0 }, none)
      else ([assetLinux, assetDarwin], { NextPage := 2 }, none),
    calls := [] }

/-! ## Lemmas on the string helpers -/

theorem hasPrefixChars_nil (l : List Char) : hasPrefixChars l [] = true := by
  cases l <;> rfl

theorem TrimPrefix_v_append (t : String) : TrimPrefix ("v" ++ t) "v" = t := by
  have h : ("v" ++ t).data = 'v' :: t.data := by simp [String.data_append]
  simp [TrimPrefix, h, hasPrefixChars, hasPrefixChars_nil]

theorem TrimPrefix_v_of_not_head (t : String) (h : t.data.head? ≠ some 'v') :
    TrimPrefix t "v" = t := by
  unfold TrimPrefix
  have hv : ("v" : String).data = ['v'] := rfl
  rw [hv]
  cases hd : t.data with
  | nil => simp [hasPrefixChars]
  | cons c cs =>
    have hc : c ≠ 'v' := by
      intro hcv; apply h; simp [hd, hcv]
    simp [hasPrefixChars, hc]

/-! ## Lemmas on paths -/

theorem takeWhile_stops (p : Char → Bool) (l W : List Char) (hl : ∀ x ∈ l, p x = true)
    (hW : W = [] ∨ ∃ w t, W = w :: t ∧ p w = false) : (l ++ W).takeWhile p = l := by
  induction l with
  | nil =>
    rcases hW with rfl | ⟨w, t, rfl, hw⟩
    · rfl
    · simp [List.takeWhile, hw]
  | cons a l ih =>
    have ha : p a = true := hl a (List.mem_cons_self _ _)
    rw [List.cons_append, List.takeWhile_cons, if_pos ha,
      ih (fun x hx => hl x (List.mem_cons_of_mem _ hx))]

theorem Base_of_last (v path : List Char) (hv : v ≠ []) (hs : '/' ∉ v)
    (h : path = v ∨ ∃ Y, path = Y ++ '/' :: v) : Base ⟨path⟩ = ⟨v⟩ := by
  have hrev : ∃ W, path.reverse = v.reverse ++ W ∧
      (W = [] ∨ ∃ w t, W = w :: t ∧ (fun c => c != '/') w = false) := by
    rcases h with rfl | ⟨Y, rfl⟩
    · exact ⟨[], by simp, Or.inl rfl⟩
    · exact ⟨'/' :: Y.reverse, by simp, Or.inr ⟨'/', Y.reverse, rfl, by decide⟩⟩
  obtain ⟨W, hW, hWc⟩ := hrev
  have hne : v.reverse ≠ [] := by simpa using hv
  obtain ⟨a, t, hat⟩ : ∃ a t, v.reverse = a :: t := by
    cases hr : v.reverse with
    | nil => exact absurd hr hne
    | cons a t => exact ⟨a, t, rfl⟩
  have ha : a ≠ '/' := by
    intro hh
    apply hs
    have : a ∈ v.reverse := by rw [hat]; exact List.mem_cons_self _ _
    rw [← hh]; exact List.mem_reverse.mp this
  have hpath : path ≠ [] := by
    intro hp
    rw [hp] at hW
    simp [hat] at hW
  have hstr : (⟨path⟩ : String) ≠ "" := by
    intro hh
    exact hpath (congrArg String.data hh)
  have hdrop : path.reverse.dropWhile (fun c => c == '/') = path.reverse := by
    rw [hW, hat, List.cons_append]
    exact List.dropWhile_cons_of_neg (by simpa using ha)
  have htake : path.reverse.takeWhile (fun c => c != '/') = v.reverse := by
    rw [hW]
    apply takeWhile_stops _ _ _ _ hWc
    intro x hx
    have hxv : x ∈ v := List.mem_reverse.mp hx
    have : x ≠ '/' := fun hh => hs (hh ▸ hxv)
    simpa using this
  unfold Base
  rw [if_neg hstr]
  simp only [hdrop, List.reverse_reverse, htake]
  rw [if_neg hv]

theorem joinSlash_cons (a : List Char) (l : List (List Char)) (hl : l ≠ []) :
    joinSlash (a :: l) = a ++ '/' :: joinSlash l := by
  cases l with
  | nil => exact absurd rfl hl
  | cons b rest => rfl

theorem joinSlash_snoc (zs : List (List Char)) (v : List Char) :
    joinSlash (zs ++ [v]) = v ∨ ∃ Y, joinSlash (zs ++ [v]) = Y ++ '/' :: v := by
  induction zs with
  | nil => left; rfl
  | cons a zs ih =>
    right
    rw [List.cons_append, joinSlash_cons a (zs ++ [v]) (by simp)]
    rcases ih with h | ⟨Y, h⟩
    · exact ⟨a, by rw [h]⟩
    · exact ⟨a ++ '/' :: Y, by rw [h]; simp⟩

theorem splitSlash_ne_nil (x : List Char) : splitSlash x ≠ [] := by
  cases x with
  | nil => simp [splitSlash]
  | cons c cs =>
    unfold splitSlash
    by_cases hc : c = '/'
    · simp [hc]
    · rw [if_neg hc]
      cases splitSlash cs <;> simp

theorem splitSlash_no_slash (v : List Char) (hs : '/' ∉ v) : splitSlash v = [v] := by
  induction v with
  | nil => rfl
  | cons c cs ih =>
    have hc : c ≠ '/' := fun hh => hs (hh ▸ List.mem_cons_self _ _)
    have ih2 := ih (fun hm => hs (List.mem_cons_of_mem _ hm))
    rw [splitSlash, if_neg hc, ih2]

theorem splitSlash_append (x y : List Char) :
    splitSlash (x ++ '/' :: y) = splitSlash x ++ splitSlash y := by
  induction x with
  | nil => simp [splitSlash]
  | cons c x ih =>
    by_cases hc : c = '/'
    · simp [splitSlash, hc, ih]
    · rw [List.cons_append, splitSlash, if_neg hc, ih, splitSlash, if_neg hc]
      cases hx : splitSlash x with
      | nil => exact absurd hx (splitSlash_ne_nil x)
      | cons h t => rfl

theorem splitSlash_joinSlash_snoc (zs : List (List Char)) (v : List Char) (hs : '/' ∉ v) :
    ∃ cs, splitSlash (joinSlash (zs ++ [v])) = cs ++ [v] := by
  rcases joinSlash_snoc zs v with h | ⟨Y, h⟩
  · exact ⟨[], by rw [h, splitSlash_no_slash v hs]; rfl⟩
  · exact ⟨splitSlash Y, by rw [h, splitSlash_append, splitSlash_no_slash v hs]⟩

theorem dropWhile_snoc (p : String → Bool) (xs : List String) (v : String) (hv : p v = false) :
    ∃ ys, (xs ++ [v]).dropWhile p = ys ++ [v] := by
  induction xs with
  | nil => exact ⟨[], by simp [List.dropWhile, hv]⟩
  | cons a xs ih =>
    by_cases ha : p a = true
    · obtain ⟨ys, h⟩ := ih
      exact ⟨ys, by rw [List.cons_append, List.dropWhile_cons_of_pos ha, h]⟩
    · exact ⟨a :: xs, by rw [List.cons_append, List.dropWhile_cons_of_neg ha]⟩

/-- The last element of a joined path is the last argument of `Join` when that
argument is a plain path element. -/
theorem Base_Join_last (xs : List String) (v : String) (hv : PathElement v) :
    Base (Join (xs ++ [v])) = v := by
  obtain ⟨h1, h2, h3, h4⟩ := hv
  have d1 : v.data ≠ [] := fun hh => h1 (String.ext hh)
  have d3 : v.data ≠ ['.'] := fun hh => h3 (String.ext hh)
  have d4 : v.data ≠ ['.', '.'] := fun hh => h4 (String.ext hh)
  obtain ⟨ys, hys⟩ := dropWhile_snoc (fun e => decide (e = "")) xs v (by simpa using h1)
  have hne : ys ++ [v] ≠ [] := by simp
  obtain ⟨cs, hcs⟩ := splitSlash_joinSlash_snoc (ys.map String.data) v.data h2
  have hjoined : joinSlash (ys.map String.data ++ [v.data]) ≠ [] := by
    rcases joinSlash_snoc (ys.map String.data) v.data with h | ⟨Y, h⟩
    · rw [h]; exact d1
    · rw [h]; simp
  have hstr : (⟨joinSlash (ys.map String.data ++ [v.data])⟩ : String) ≠ "" :=
    fun hh => hjoined (congrArg String.data hh)
  have hfold : ∀ r : Bool, (cs ++ [v.data]).foldl (cleanStep r) [] =
      v.data :: cs.foldl (cleanStep r) [] := by
    intro r
    rw [List.foldl_append]
    simp [cleanStep, d1, d3, d4]
  have hv2 : (⟨v.data⟩ : String) = v := rfl
  unfold Join
  simp only [hys, if_neg hne, List.map_append, List.map_cons, List.map_nil]
  unfold Clean
  rw [if_neg hstr]
  simp only [hcs, hfold, List.reverse_cons]
  generalize ((joinSlash (ys.map String.data ++ [v.data])).head? == some '/') = r
  cases r with
  | true =>
    rw [if_pos rfl, ← hv2]
    apply Base_of_last _ _ d1 h2
    rcases joinSlash_snoc (cs.foldl (cleanStep true) []).reverse v.data with h | ⟨Y, h⟩
    · right; exact ⟨[], by rw [h]; rfl⟩
    · right; exact ⟨'/' :: Y, by rw [h]; rfl⟩
  | false =>
    rw [if_neg (by simp), if_neg (by simp), ← hv2]
    exact Base_of_last _ _ d1 h2 (joinSlash_snoc _ _)

/-- What `filepath.Join` and `filepath.Base` do on the sample downloads
directory: a plain version is the last element, an empty version leaves the
repository last, a version holding a slash leaves its last part. -/
theorem downloads_dir_samples :
    Join ["/downloads", "github", "acme", "tool", "1.0.0"] =
        "/downloads/github/acme/tool/1.0.0" ∧
      Base (Join ["/downloads", "github", "acme", "tool", "1.0.0"]) = "1.0.0" ∧
      Base (Join ["/downloads", "github", "acme", "tool", ""]) = "tool" ∧
      Base (Join ["/downloads", "github", "acme", "tool", "release/1.0"]) = "1.0" ∧
      Clean "a//b/./c/.." = "a/b" ∧ Clean "/.." = "/" ∧ Clean "../a/.." = ".." ∧
      Clean "" = "." := by
  decide

/-! ## Lemmas on the listing walk -/

namespace GitHub

theorem findLoop_no_match (incl : Bool) (L : List RepositoryRelease) (version : String)
    (release : Option RepositoryRelease)
    (h : ∀ x ∈ L, ¬ MatchesRule incl version x) :
    findLoop incl L version release = (version, release) := by
  induction L with
  | nil => rfl
  | cons r rest ih =>
    have hr : ¬ MatchesRule incl version r := h r (List.mem_cons_self _ _)
    have h1 : ¬ (incl = true ∧ r.Prerelease = true) := fun hh => hr (Or.inl hh)
    have h2 : ¬ (r.TagName = version ∨ r.Name = "v" ++ version) := fun hh => hr (Or.inr hh)
    rw [findLoop, if_neg h1, if_neg h2]
    exact ih (fun x hx => h x (List.mem_cons_of_mem _ hx))

theorem findLoop_first (incl : Bool) (before after : List RepositoryRelease)
    (r : RepositoryRelease) (version : String) (release : Option RepositoryRelease)
    (hb : ∀ x ∈ before, ¬ MatchesRule incl version x) (hr : MatchesRule incl version r) :
    findLoop incl (before ++ r :: after) version release =
      (if incl = true ∧ r.Prerelease = true then TrimPrefix r.TagName "v" else version,
        some r) := by
  induction before with
  | nil =>
    rw [List.nil_append, findLoop]
    by_cases h1 : incl = true ∧ r.Prerelease = true
    · rw [if_pos h1, if_pos h1]
    · have h2 : r.TagName = version ∨ r.Name = "v" ++ version := by
        rcases hr with h | h
        · exact absurd h h1
        · exact h
      rw [if_neg h1, if_pos h2, if_neg h1]
  | cons x rest ih =>
    have hx : ¬ MatchesRule incl version x := hb x (List.mem_cons_self _ _)
    have h1 : ¬ (incl = true ∧ x.Prerelease = true) := fun hh => hx (Or.inl hh)
    have h2 : ¬ (x.TagName = version ∨ x.Name = "v" ++ version) := fun hh => hx (Or.inr hh)
    rw [List.cons_append, findLoop, if_neg h1, if_neg h2]
    exact ih (fun y hy => hb y (List.mem_cons_of_mem _ hy))

/-- A list either has no entry satisfying a decidable rule or has a first one. -/
theorem first_match_or_none (P : RepositoryRelease → Prop) [DecidablePred P]
    (L : List RepositoryRelease) :
    (∀ x ∈ L, ¬ P x) ∨ ∃ r, IsFirstMatch P L r := by
  induction L with
  | nil => left; intro x hx; cases hx
  | cons a rest ih =>
    by_cases ha : P a
    · right; exact ⟨a, [], rest, rfl, (by intro x hx; cases hx), ha⟩
    · rcases ih with h | ⟨r, before, after, hL, hb, hr⟩
      · left
        intro x hx
        rcases List.mem_cons.mp hx with rfl | hx
        · exact ha
        · exact h x hx
      · right
        refine ⟨r, a :: before, after, by rw [hL]; rfl, ?_, hr⟩
        intro x hx
        rcases List.mem_cons.mp hx with rfl | hx
        · exact ha
        · exact hb x hx

/-- The first match of a list is unique. -/
theorem first_match_unique (P : RepositoryRelease → Prop) (L : List RepositoryRelease)
    (r r2 : RepositoryRelease) (h1 : IsFirstMatch P L r) (h2 : IsFirstMatch P L r2) :
    r = r2 := by
  obtain ⟨b1, a1, e1, hb1, hr1⟩ := h1
  obtain ⟨b2, a2, e2, hb2, hr2⟩ := h2
  induction L generalizing b1 b2 with
  | nil => cases b1 <;> cases e1
  | cons x rest ih =>
    cases b1 with
    | nil =>
      cases b2 with
      | nil =>
        simp only [List.nil_append, List.cons.injEq] at e1 e2
        rw [← e1.1, ← e2.1]
      | cons y b2 =>
        simp only [List.nil_append, List.cons_append, List.cons.injEq] at e1 e2
        exact absurd (by rw [← e2.1, e1.1]; exact hr1) (hb2 y (List.mem_cons_self _ _))
    | cons y b1 =>
      cases b2 with
      | nil =>
        simp only [List.nil_append, List.cons_append, List.cons.injEq] at e1 e2
        exact absurd (by rw [← e1.1, e2.1]; exact hr2) (hb1 y (List.mem_cons_self _ _))
      | cons z b2 =>
        simp only [List.cons_append, List.cons.injEq] at e1 e2
        exact ih b1 e1.2 (fun w hw => hb1 w (List.mem_cons_of_mem _ hw)) b2 e2.2
          (fun w hw => hb2 w (List.mem_cons_of_mem _ hw))

/-- The listing branch of `resolve` when the call succeeds with `L`. -/
theorem resolve_list (s : GitHub) (L : List RepositoryRelease) (resp : Response)
    (hlist : s.client.releases s.Owner s.Repo none = (L, resp, none)) :
    resolve s none =
      finish { s with
                client := { s.client with
                  calls := s.client.calls ++ [Call.listReleases s.Owner s.Repo none] },
                Version := (findLoop s.Options.IncludePreReleases L s.Version none).1 }
        (findLoop s.Options.IncludePreReleases L s.Version none).2 := by
  simp [resolve, Client.ListReleases, GetOwner, GetRepo, hlist]

/-- The listing branch of `resolve` when the call fails with `e`. -/
theorem resolve_list_error (s : GitHub) (L : List RepositoryRelease) (resp : Response)
    (e : String) (hlist : s.client.releases s.Owner s.Repo none = (L, resp, some e)) :
    resolve s none =
      ({ s with client := { s.client with
          calls := s.client.calls ++ [Call.listReleases s.Owner s.Repo none] } }, some e) := by
  simp [resolve, Client.ListReleases, GetOwner, GetRepo, hlist]

/-- The sentinel version when the direct call answers a 404: `FindRelease` goes
on to the listing. -/
theorem FindRelease_latest_404 (s : GitHub) (e : String)
    (hv : s.Version = VersionLatest)
    (hlatest : s.client.latest s.Owner s.Repo = (none, some e))
    (h404 : Contains e "404 Not Found" = true) :
    FindRelease s =
      resolve { s with client := { s.client with
        calls := s.client.calls ++ [Call.getLatestRelease s.Owner s.Repo] } } none := by
  simp [FindRelease, hv, Client.GetLatestRelease, GetOwner, GetRepo, hlatest, h404, setLatest]

/-- An explicit version sends `FindRelease` to the listing at once. -/
theorem FindRelease_explicit (s : GitHub) (hv : s.Version ≠ VersionLatest) :
    FindRelease s = resolve s none := by
  simp [FindRelease, hv]

/-- The listing walk finds nothing: `resolve` reports it and keeps the fields. -/
theorem resolve_no_match (s : GitHub) (L : List RepositoryRelease) (resp : Response)
    (hlist : s.client.releases s.Owner s.Repo none = (L, resp, none))
    (hno : ∀ x ∈ L, ¬ MatchesRule s.Options.IncludePreReleases s.Version x) :
    (resolve s none).2 = some "release not found" ∧
      (resolve s none).1.Version = s.Version ∧
      (resolve s none).1.Release = s.Release ∧
      (resolve s none).1.client.calls =
        s.client.calls ++ [Call.listReleases s.Owner s.Repo none] := by
  rw [resolve_list s L resp hlist, findLoop_no_match _ L _ _ hno]
  simp [finish]

/-- The listing walk selects the first match. -/
theorem resolve_first_match (s : GitHub) (L : List RepositoryRelease) (resp : Response)
    (hlist : s.client.releases s.Owner s.Repo none = (L, resp, none))
    (r : RepositoryRelease)
    (hfirst : IsFirstMatch (MatchesRule s.Options.IncludePreReleases s.Version) L r) :
    (resolve s none).2 = none ∧
      (resolve s none).1.Release = some r ∧
      (resolve s none).1.Version =
        (if s.Options.IncludePreReleases = true ∧ r.Prerelease = true then
          TrimPrefix r.TagName "v" else s.Version) ∧
      (resolve s none).1.client.calls =
        s.client.calls ++ [Call.listReleases s.Owner s.Repo none] := by
  obtain ⟨before, after, hL, hb, hr⟩ := hfirst
  rw [resolve_list s L resp hlist, hL, findLoop_first _ before after r _ _ hb hr]
  simp [finish]

/-- What `resolve` returns on a successful listing, as an equivalence. -/
theorem resolve_success_iff (s : GitHub) (L : List RepositoryRelease) (resp : Response)
    (hlist : s.client.releases s.Owner s.Repo none = (L, resp, none))
    (r : RepositoryRelease) :
    ((resolve s none).2 = none ∧ (resolve s none).1.Release = some r) ↔
      IsFirstMatch (MatchesRule s.Options.IncludePreReleases s.Version) L r := by
  constructor
  · rintro ⟨herr, hrel⟩
    rcases first_match_or_none (MatchesRule s.Options.IncludePreReleases s.Version) L with
      hno | ⟨r0, h0⟩
    · have h := (resolve_no_match s L resp hlist hno).1
      rw [herr] at h
      cases h
    · have h := (resolve_first_match s L resp hlist r0 h0).2.1
      rw [hrel] at h
      cases h
      exact h0
  · intro h
    exact ⟨(resolve_first_match s L resp hlist r h).1, (resolve_first_match s L resp hlist r h).2.1⟩

/-- A successful listing branch stores a release that satisfies the rule, and
leaves `Version` stripped from a permitted pre-release tag or as requested. -/
theorem resolve_success (s : GitHub) (h : (resolve s none).2 = none) :
    ∃ r, (resolve s none).1.Release = some r ∧
      MatchesRule s.Options.IncludePreReleases s.Version r ∧
      (resolve s none).1.Version =
        (if s.Options.IncludePreReleases = true ∧ r.Prerelease = true then
          TrimPrefix r.TagName "v" else s.Version) := by
  rcases hl : s.client.releases s.Owner s.Repo none with ⟨L, resp, err⟩
  cases err with
  | some e =>
    rw [resolve_list_error s L resp e hl] at h
    cases h
  | none =>
    rcases first_match_or_none (MatchesRule s.Options.IncludePreReleases s.Version) L with
      hno | ⟨r, hf⟩
    · have h2 := (resolve_no_match s L resp hl hno).1
      rw [h] at h2
      cases h2
    · have h2 := resolve_first_match s L resp hl r hf
      obtain ⟨_, _, _, _, hr⟩ := hf
      exact ⟨r, h2.2.1, hr, h2.2.2.1⟩

end GitHub

/-! ## Release resolution on GitHub -/

/-- C1: for the sentinel version, when the direct latest-release call fails with
a 404 and the listing call succeeds with `L`, `FindRelease` succeeds with
`Release = r` exactly when `r` is the first entry of `L`, in listing order, that
satisfies the matching rule for the effective version (still the sentinel); an
earlier matching entry is never passed over. -/
theorem FindRelease_fallback_selects_first_match (s : GitHub) (e : String)
    (L : List RepositoryRelease) (resp : Response)
    (hv : s.Version = VersionLatest)
    (hlatest : s.client.latest s.Owner s.Repo = (none, some e))
    (h404 : Contains e "404 Not Found" = true)
    (hlist : s.client.releases s.Owner s.Repo none = (L, resp, none))
    (r : RepositoryRelease) :
    (s.FindRelease.2 = none ∧ s.FindRelease.1.Release = some r) ↔
      IsFirstMatch (MatchesRule s.Options.IncludePreReleases VersionLatest) L r := by
  rw [GitHub.FindRelease_latest_404 s e hv hlatest h404]
  have h := GitHub.resolve_success_iff
    { s with client := { s.client with
        calls := s.client.calls ++ [Call.getLatestRelease s.Owner s.Repo] } } L resp hlist r
  rw [← hv]
  exact h

/-- C4: for the sentinel version, when the direct latest-release call succeeds
with `r`, `FindRelease` returns no error, stores `r` in `Release`, sets `Version`
to the tag of `r` without one leading "v" (the tag itself when it has none), and
issues the direct call only: the listing is not consulted. -/
theorem FindRelease_direct_latest (s : GitHub) (r : RepositoryRelease)
    (hv : s.Version = VersionLatest)
    (hlatest : s.client.latest s.Owner s.Repo = (some r, none)) :
    s.FindRelease.2 = none ∧
      s.FindRelease.1.Release = some r ∧
      s.FindRelease.1.Version = TrimPrefix r.TagName "v" ∧
      (∀ t, r.TagName = "v" ++ t → s.FindRelease.1.Version = t) ∧
      (r.TagName.data.head? ≠ some 'v' → s.FindRelease.1.Version = r.TagName) ∧
      s.FindRelease.1.client.calls =
        s.client.calls ++ [Call.getLatestRelease s.Owner s.Repo] := by
  have hF : s.FindRelease =
      ({ s with
          client := { s.client with
            calls := s.client.calls ++ [Call.getLatestRelease s.Owner s.Repo] },
          Version := TrimPrefix r.TagName "v",
          Release := some r }, none) := by
    simp [GitHub.FindRelease, hv, Client.GetLatestRelease, GitHub.GetOwner, GitHub.GetRepo,
      hlatest, GitHub.setLatest, GitHub.resolve, GitHub.finish]
  rw [hF]
  refine ⟨rfl, rfl, rfl, ?_, ?_, rfl⟩
  · intro t ht
    show TrimPrefix r.TagName "v" = t
    rw [ht, TrimPrefix_v_append]
  · intro hh
    exact TrimPrefix_v_of_not_head _ hh

/-- C7: for an explicit version, when the listing call succeeds with `L`,
`FindRelease` returns "release not found" if and only if no entry of `L`
satisfies the matching rule for that version; and when it returns that error,
`Version` and `Release` are what they were before the call. -/
theorem FindRelease_not_found_iff (s : GitHub) (L : List RepositoryRelease) (resp : Response)
    (hv : s.Version ≠ VersionLatest)
    (hlist : s.client.releases s.Owner s.Repo none = (L, resp, none)) :
    (s.FindRelease.2 = some "release not found" ↔
        ∀ x ∈ L, ¬ MatchesRule s.Options.IncludePreReleases s.Version x) ∧
      (s.FindRelease.2 = some "release not found" →
        s.FindRelease.1.Version = s.Version ∧ s.FindRelease.1.Release = s.Release) := by
  rw [GitHub.FindRelease_explicit s hv]
  have key : (GitHub.resolve s none).2 = some "release not found" →
      ∀ x ∈ L, ¬ MatchesRule s.Options.IncludePreReleases s.Version x := by
    intro herr
    rcases GitHub.first_match_or_none (MatchesRule s.Options.IncludePreReleases s.Version) L with
      hno | ⟨r0, h0⟩
    · exact hno
    · have h := (GitHub.resolve_first_match s L resp hlist r0 h0).1
      rw [herr] at h
      cases h
  refine ⟨⟨key, fun hno => (GitHub.resolve_no_match s L resp hlist hno).1⟩, ?_⟩
  intro herr
  have h := GitHub.resolve_no_match s L resp hlist (key herr)
  exact ⟨h.2.1, h.2.2.1⟩

/-- C8: for the sentinel version, a failure of the direct latest-release call
whose text does not contain "404 Not Found" is returned unchanged, only the
direct call is issued (the listing is not consulted), and `Version` and
`Release` are untouched; and whenever the listing is consulted (explicit
version, or sentinel version after a 404) and fails, that failure is returned
unchanged with `Version` and `Release` untouched. -/
theorem FindRelease_failures_are_fatal (s : GitHub) :
    (∀ (o : Option RepositoryRelease) (e : String),
        s.Version = VersionLatest →
        s.client.latest s.Owner s.Repo = (o, some e) →
        Contains e "404 Not Found" = false →
        s.FindRelease.2 = some e ∧
          s.FindRelease.1.Version = s.Version ∧
          s.FindRelease.1.Release = s.Release ∧
          s.FindRelease.1.client.calls =
            s.client.calls ++ [Call.getLatestRelease s.Owner s.Repo]) ∧
    (∀ (L : List RepositoryRelease) (resp : Response) (e : String),
        (s.Version ≠ VersionLatest ∨
          ∃ e404, s.client.latest s.Owner s.Repo = (none, some e404) ∧
            Contains e404 "404 Not Found" = true) →
        s.client.releases s.Owner s.Repo none = (L, resp, some e) →
        s.FindRelease.2 = some e ∧
          s.FindRelease.1.Version = s.Version ∧
          s.FindRelease.1.Release = s.Release) := by
  constructor
  · intro o e hv hlatest h404
    have hF : s.FindRelease =
        ({ s with client := { s.client with
            calls := s.client.calls ++ [Call.getLatestRelease s.Owner s.Repo] } }, some e) := by
      simp [GitHub.FindRelease, hv, Client.GetLatestRelease, GitHub.GetOwner, GitHub.GetRepo,
        hlatest, h404]
    rw [hF]
    exact ⟨rfl, rfl, rfl, rfl⟩
  · intro L resp e hreach hlist
    by_cases hv : s.Version = VersionLatest
    · rcases hreach with hne | ⟨e404, hlatest, h404⟩
      · exact absurd hv hne
      · have h := GitHub.resolve_list_error
          { s with client := { s.client with
              calls := s.client.calls ++ [Call.getLatestRelease s.Owner s.Repo] } } L resp e hlist
        rw [GitHub.FindRelease_latest_404 s e404 hv hlatest h404, h]
        exact ⟨rfl, rfl, rfl⟩
    · rw [GitHub.FindRelease_explicit s hv, GitHub.resolve_list_error s L resp e hlist]
      exact ⟨rfl, rfl, rfl⟩

theorem FindRelease_fallback_selects_first_match_witness :
    (sampleBackend client404 "latest" false).FindRelease.2 = none ∧
      (sampleBackend client404 "latest" false).FindRelease.1.Release = some relRolling :=
  (FindRelease_fallback_selects_first_match (sampleBackend client404 "latest" false)
    notFoundText sampleListing { NextPage := 0 } rfl rfl (by decide) rfl relRolling).mpr
    ⟨[relStable], [relRollingOld], rfl, by decide, by decide⟩

theorem FindRelease_direct_latest_witness :
    (sampleBackend clientLatest "latest" false).FindRelease.2 = none ∧
      (sampleBackend clientLatest "latest" false).FindRelease.1.Release = some relStable ∧
      (sampleBackend clientLatest "latest" false).FindRelease.1.Version = "1.0.0" ∧
      (sampleBackend clientLatest "latest" false).FindRelease.1.client.calls =
        [Call.getLatestRelease "acme" "tool"] :=
  have h := FindRelease_direct_latest (sampleBackend clientLatest "latest" false) relStable
    rfl rfl
  ⟨h.1, h.2.1, h.2.2.2.1 "1.0.0" rfl, h.2.2.2.2.2⟩

theorem FindRelease_not_found_iff_witness :
    (sampleBackend client404 "3.0.0" false).FindRelease.2 = some "release not found" ∧
      (sampleBackend client404 "3.0.0" false).FindRelease.1.Version = "3.0.0" ∧
      (sampleBackend client404 "3.0.0" false).FindRelease.1.Release = none :=
  have h := FindRelease_not_found_iff (sampleBackend client404 "3.0.0" false)
    sampleListing { NextPage := 0 } (by decide) rfl
  have herr := h.1.mpr (by decide)
  ⟨herr, h.2 herr⟩

theorem FindRelease_failures_are_fatal_witness :
    ((sampleBackend clientServerError "latest" false).FindRelease.2 = some serverErrorText ∧
      (sampleBackend clientServerError "latest" false).FindRelease.1.Version = "latest" ∧
      (sampleBackend clientServerError "latest" false).FindRelease.1.Release = none ∧
      (sampleBackend clientServerError "latest" false).FindRelease.1.client.calls =
        [Call.getLatestRelease "acme" "tool"]) ∧
    ((sampleBackend clientListingFails "latest" false).FindRelease.2 =
        some "403 rate limit exceeded" ∧
      (sampleBackend clientListingFails "latest" false).FindRelease.1.Version = "latest" ∧
      (sampleBackend clientListingFails "latest" false).FindRelease.1.Release = none) :=
  ⟨(FindRelease_failures_are_fatal (sampleBackend clientServerError "latest" false)).1
      none serverErrorText rfl rfl (by decide),
    (FindRelease_failures_are_fatal (sampleBackend clientListingFails "latest" false)).2
      [] { NextPage := 0 } "403 rate limit exceeded"
      (Or.inr ⟨notFoundText, rfl, by decide⟩) rfl⟩

/-- C10: `FindRelease` issues one listing request, with `nil` options, and walks
only its answer: for the repository `clientTwoPages`, whose first page announces
page 2 and whose page 2 holds a release that satisfies the matching rule for the
requested version `2.0.0`, it returns "release not found". -/
theorem FindRelease_reads_first_page_only :
    (clientTwoPages.releases "acme" "tool" none).2.1.NextPage = 2 ∧
      relNew ∈ (clientTwoPages.releases "acme" "tool"
        (some { Page := 2, PerPage := 0 })).1 ∧
      MatchesRule false "2.0.0" relNew ∧
      (sampleBackend clientTwoPages "2.0.0" false).FindRelease.2 =
        some "release not found" ∧
      (sampleBackend clientTwoPages "2.0.0" false).FindRelease.1.client.calls =
        [Call.listReleases "acme" "tool" none] := by
  decide

/-! ## The version after resolution -/

/-- C2: the code returns success with no assets: for the explicit request
`v1.2.3`, answered with a release whose link list is empty, `sourceRun` and
`PreRun` return a nil error and leave `Assets` empty. -/
theorem sourceRun_empty_links_succeeds :
    gitlabEmptyRelease.Links = [] ∧
      ((sampleGitLab "v1.2.3").sourceRun.map fun p => (p.1.Assets, p.1.Release, p.2)) =
        some ([], some gitlabEmptyRelease, none) ∧
      ((sampleGitLab "v1.2.3").PreRun.map fun p => (p.1.Assets, p.1.Release, p.2)) =
        some ([], some gitlabEmptyRelease, none) ∧
      ((sampleGitLab "latest").PreRun.map fun p => (p.1.Assets, p.1.Release, p.2)) =
        some ([], some gitlabEmptyRelease, none) := by
  decide

/-! ## Identity of a target -/

theorem split_at_separator (c : Char) (x y r t : List Char) (hx : c ∉ x) (hy : c ∉ y)
    (h : x ++ c :: r = y ++ c :: t) : x = y ∧ r = t := by
  induction x generalizing y with
  | nil =>
    cases y with
    | nil => simpa using h
    | cons b y =>
      simp only [List.nil_append, List.cons_append, List.cons.injEq] at h
      exact absurd (h.1 ▸ List.mem_cons_self _ _) hy
  | cons a x ih =>
    cases y with
    | nil =>
      simp only [List.nil_append, List.cons_append, List.cons.injEq] at h
      exact absurd (h.1 ▸ List.mem_cons_self _ _) hx
    | cons b y =>
      simp only [List.cons_append, List.cons.injEq] at h
      have h2 := ih y (fun hm => hx (List.mem_cons_of_mem _ hm))
        (fun hm => hy (List.mem_cons_of_mem _ hm)) h.2
      exact ⟨by rw [h.1, h2.1], h2.2⟩

theorem GitHub.GetID_chars (s : GitHub) :
    s.GetID.data = "github".data ++ '-' :: (s.Owner.data ++ '-' :: (s.Repo.data ++
      '-' :: (s.OS.data ++ '-' :: s.Arch.data))) := by
  simp [GitHub.GetID, String.intercalate, String.intercalate.go, String.data_append,
    GitHub.GetSource, GitHub.GetOwner, GitHub.GetRepo, GitHub.GetOS, GitHub.GetArch]

theorem GitLab.GetID_slash_chars (s : GitLab) :
    s.GetID.data = "gitlab".data ++ '/' :: (s.Owner.data ++ '/' :: s.Repo.data) := by
  simp [GitLab.GetID, String.data_append, GitLab.GetSource, GitLab.GetOwner, GitLab.GetRepo]

theorem append_left_cancel_string (p x y : String) (h : p ++ x = p ++ y) : x = y := by
  have hd : (p ++ x).data = (p ++ y).data := by rw [h]
  rw [String.data_append, String.data_append] at hd
  exact String.ext (List.append_cancel_left hd)

/-- C6, as stated, fails: the GitHub targets `acme-dev/tool` and `acme/dev-tool`
differ in owner and repository and have the same `GetID`, hence the same cache
file. -/
theorem GetID_not_injective :
    dashedOwner.Owner ≠ dashedRepo.Owner ∧ dashedOwner.Repo ≠ dashedRepo.Repo ∧
      dashedOwner.GetID = dashedRepo.GetID ∧
      dashedOwner.cacheFile = dashedRepo.cacheFile := by
  decide

/-- C6, amended: two GitHub values whose owner, repository and OS contain no "-"
and that differ in owner, repository, OS or architecture have different `GetID`
strings and different cache files; two GitLab values whose owner contains no "/"
and that differ in owner or repository have different `GetID` strings and
different cache files. -/
theorem GetID_injective_without_separator (a b : GitHub) (c d : GitLab) :
    (FreeOf '-' a.Owner ∧ FreeOf '-' a.Repo ∧ FreeOf '-' a.OS →
      FreeOf '-' b.Owner ∧ FreeOf '-' b.Repo ∧ FreeOf '-' b.OS →
      a.Owner ≠ b.Owner ∨ a.Repo ≠ b.Repo ∨ a.OS ≠ b.OS ∨ a.Arch ≠ b.Arch →
      a.GetID ≠ b.GetID ∧ a.cacheFile ≠ b.cacheFile) ∧
    (FreeOf '/' c.Owner → FreeOf '/' d.Owner →
      c.Owner ≠ d.Owner ∨ c.Repo ≠ d.Repo →
      c.GetID ≠ d.GetID ∧ c.cacheFile ≠ d.cacheFile) := by
  constructor
  · rintro ⟨ha1, ha2, ha3⟩ ⟨hb1, hb2, hb3⟩ hdiff
    have key : a.GetID ≠ b.GetID := by
      intro heq
      have hd : a.GetID.data = b.GetID.data := by rw [heq]
      rw [GitHub.GetID_chars, GitHub.GetID_chars] at hd
      have h0 := List.append_cancel_left hd
      simp only [List.cons.injEq, true_and] at h0
      obtain ⟨e1, h1⟩ := split_at_separator '-' _ _ _ _ ha1 hb1 h0
      obtain ⟨e2, h2⟩ := split_at_separator '-' _ _ _ _ ha2 hb2 h1
      obtain ⟨e3, h3⟩ := split_at_separator '-' _ _ _ _ ha3 hb3 h2
      rcases hdiff with h | h | h | h
      · exact h (String.ext e1)
      · exact h (String.ext e2)
      · exact h (String.ext e3)
      · exact h (String.ext h3)
    exact ⟨key, fun h => key (append_left_cancel_string _ _ _ h)⟩
  · intro hc hd2 hdiff
    have key : c.GetID ≠ d.GetID := by
      intro heq
      have hd : c.GetID.data = d.GetID.data := by rw [heq]
      rw [GitLab.GetID_slash_chars, GitLab.GetID_slash_chars] at hd
      have h0 := List.append_cancel_left hd
      simp only [List.cons.injEq, true_and] at h0
      obtain ⟨e1, h1⟩ := split_at_separator '/' _ _ _ _ hc hd2 h0
      rcases hdiff with h | h
      · exact h (String.ext e1)
      · exact h (String.ext h1)
    exact ⟨key, fun h => key (append_left_cancel_string _ _ _ h)⟩

theorem GetID_injective_without_separator_witness :
    ((sampleBackend client404 "latest" false).GetID ≠
        ({ sampleBackend client404 "latest" false with OS := "darwin" } : GitHub).GetID ∧
      (sampleBackend client404 "latest" false).cacheFile ≠
        ({ sampleBackend client404 "latest" false with OS := "darwin" } : GitHub).cacheFile) ∧
    ((sampleGitLab "latest").GetID ≠
        ({ sampleGitLab "latest" with Repo := "other" } : GitLab).GetID ∧
      (sampleGitLab "latest").cacheFile ≠
        ({ sampleGitLab "latest" with Repo := "other" } : GitLab).cacheFile) :=
  ⟨(GetID_injective_without_separator (sampleBackend client404 "latest" false)
      { sampleBackend client404 "latest" false with OS := "darwin" }
      (sampleGitLab "latest") { sampleGitLab "latest" with Repo := "other" }).1
      (by decide) (by decide) (by decide),
    (GetID_injective_without_separator (sampleBackend client404 "latest" false)
      { sampleBackend client404 "latest" false with OS := "darwin" }
      (sampleGitLab "latest") { sampleGitLab "latest" with Repo := "other" }).2
      (by decide) (by decide) (by decide)⟩

/-! ## Asset enumeration on GitHub -/

/-- The requests of the asset listing for the pages `pages`. -/
theorem GitHub.assetsLoop_chain (rest : List Int) :
    ∀ (s : GitHub) (p : Int) (fuel : Nat),
      IsPageChain (pageAnswer s) p rest → rest.length + 1 ≤ fuel →
      GitHub.assetsLoop fuel s { Page := p, PerPage := 100 } =
        some (GitHub.checkAssets
          { s with
            client := { s.client with
              calls := s.client.calls ++ (p :: rest).map fun q =>
                Call.listReleaseAssets s.Owner s.Repo s.releaseID { Page := q, PerPage := 100 } },
            Assets := s.Assets ++
              (listedAssets (pageAnswer s) (p :: rest)).map (GitHub.wrapAsset s) }) := by
  induction rest with
  | nil =>
    intro s p fuel hchain hfuel
    obtain ⟨herr, hnext⟩ := hchain
    obtain ⟨f, rfl⟩ : ∃ f, fuel = f + 1 := ⟨fuel - 1, by omega⟩
    unfold pageAnswer at herr hnext
    simp [GitHub.assetsLoop, Client.ListReleaseAssets, GitHub.GetOwner, GitHub.GetRepo, herr,
      hnext, listedAssets, pageAnswer]
    rfl
  | cons q rest ih =>
    intro s p fuel hchain hfuel
    obtain ⟨herr, hnext, hq, htail⟩ := hchain
    obtain ⟨f, rfl⟩ : ∃ f, fuel = f + 1 := ⟨fuel - 1, by omega⟩
    have hf : rest.length + 1 ≤ f := by
      simp only [List.length_cons] at hfuel
      omega
    have hstep := ih
      { s with
        client := { s.client with
          calls := s.client.calls ++
            [Call.listReleaseAssets s.Owner s.Repo s.releaseID { Page := p, PerPage := 100 }] },
        Assets := s.Assets ++ (pageAnswer s p).1.map (GitHub.wrapAsset s) } q f htail hf
    unfold pageAnswer at herr hnext
    have hgoal : GitHub.assetsLoop (f + 1) s { Page := p, PerPage := 100 } =
        GitHub.assetsLoop f
          { s with
            client := { s.client with
              calls := s.client.calls ++
                [Call.listReleaseAssets s.Owner s.Repo s.releaseID
                  { Page := p, PerPage := 100 }] },
            Assets := s.Assets ++ (pageAnswer s p).1.map (GitHub.wrapAsset s) }
          { Page := q, PerPage := 100 } := by
      rw [GitHub.assetsLoop]
      simp only [Client.ListReleaseAssets, GitHub.GetOwner, GitHub.GetRepo, herr, hnext]
      rw [if_neg hq]
      rfl
    rw [hgoal, hstep]
    have hw : GitHub.wrapAsset
        { s with
          client := { s.client with
            calls := s.client.calls ++
              [Call.listReleaseAssets s.Owner s.Repo s.releaseID
                { Page := p, PerPage := 100 }] },
          Assets := s.Assets ++ (pageAnswer s p).1.map (GitHub.wrapAsset s) } =
        GitHub.wrapAsset s := rfl
    have hp : pageAnswer
        { s with
          client := { s.client with
            calls := s.client.calls ++
              [Call.listReleaseAssets s.Owner s.Repo s.releaseID
                { Page := p, PerPage := 100 }] },
          Assets := s.Assets ++ (pageAnswer s p).1.map (GitHub.wrapAsset s) } =
        pageAnswer s := rfl
    rw [hw, hp]
    simp [listedAssets, GitHub.releaseID, List.append_assoc]

/-- C9: starting with no assets, when the asset listing of the release consists
of the pages `0 :: rest` (every request succeeds, each page announces the next,
the last announces 0), `GetReleaseAssets` returns for every fuel of at least one
unit per page; it requests exactly these pages, in this order; `Assets` holds
one entry per listed asset, in page order then in-page order, each with the name
of its asset; and the error is nil if and only if some asset is listed, "no
assets found" otherwise. -/
theorem GetReleaseAssets_complete (s : GitHub) (rest : List Int) (fuel : Nat)
    (hempty : s.Assets = [])
    (hchain : IsPageChain (pageAnswer s) 0 rest)
    (hfuel : rest.length + 1 ≤ fuel) :
    ∃ s2 err, s.GetReleaseAssets fuel = some (s2, err) ∧
      s2.client.calls = s.client.calls ++ (0 :: rest).map (fun q =>
        Call.listReleaseAssets s.Owner s.Repo s.releaseID { Page := q, PerPage := 100 }) ∧
      s2.Assets.map (fun a => a.ReleaseAsset) = listedAssets (pageAnswer s) (0 :: rest) ∧
      s2.Assets.map (fun a => a.Asset.Name) =
        (listedAssets (pageAnswer s) (0 :: rest)).map (fun a => a.Name) ∧
      s2.Assets.length = (listedAssets (pageAnswer s) (0 :: rest)).length ∧
      (err = none ↔ listedAssets (pageAnswer s) (0 :: rest) ≠ []) ∧
      (listedAssets (pageAnswer s) (0 :: rest) = [] → err = some "no assets found") := by
  have h := GitHub.assetsLoop_chain rest s 0 fuel hchain hfuel
  unfold GitHub.GetReleaseAssets
  rw [h, hempty]
  generalize listedAssets (pageAnswer s) (0 :: rest) = listed
  cases listed with
  | nil =>
    refine ⟨_, _, rfl, ?_⟩
    simp [GitHub.checkAssets]
  | cons a l =>
    refine ⟨_, _, rfl, ?_⟩
    simp [GitHub.checkAssets, GitHub.wrapAsset, Function.comp_def]

theorem GetReleaseAssets_complete_witness :
    ∃ s2 err, (sampleBackend clientAssetPages "1.0.0" false).GetReleaseAssets 2 =
        some (s2, err) ∧
      s2.client.calls =
        [Call.listReleaseAssets "acme" "tool" 0 { Page := 0, PerPage := 100 },
          Call.listReleaseAssets "acme" "tool" 0 { Page := 2, PerPage := 100 }] ∧
      s2.Assets.map (fun a => a.ReleaseAsset) = [assetLinux, assetDarwin, assetSums] ∧
      s2.Assets.map (fun a => a.Asset.Name) =
        ["tool-linux-amd64.tar.gz", "tool-darwin-arm64.tar.gz", "checksums.txt"] ∧
      s2.Assets.length = 3 ∧
      (err = none ↔ [assetLinux, assetDarwin, assetSums] ≠ []) ∧
      ([assetLinux, assetDarwin, assetSums] = [] → err = some "no assets found") :=
  GetReleaseAssets_complete (sampleBackend clientAssetPages "1.0.0" false) [2] 2 rfl
    ⟨rfl, rfl, by decide, rfl, rfl⟩ (by decide)

/-! ## Scoring engine -/

/-- The scenarios of `TestScore` other than the checksum one. -/
theorem Score_test_scenarios :
    score.Score ["dist-linux-amd64.deb"]
        { OS := ["linux"], Arch := ["amd64"], Extensions := ["unknown"] } =
      [{ Key := "dist-linux-amd64.deb", Value := 70 }] ∧
    score.Score ["dist-linux-amd64"]
        { OS := ["linux"], Arch := ["amd64"],
          Extensions := ["gz", "unknown", "zip", "xz", "tar", "bz2", "exe"] } =
      [{ Key := "dist-linux-amd64", Value := 70 }] ∧
    score.Score ["something-linux"]
        { OS := ["macos"], Arch := ["amd64"], Extensions := ["unknown"],
          Names := ["something"] } =
      [{ Key := "something-linux", Value := 10 }] ∧
    score.Score ["dist-linux-amd64.sig"]
        { OS := ["linux"], Arch := ["amd64"], Extensions := ["sig"], Names := ["dist"] } =
      [{ Key := "dist-linux-amd64.sig", Value := 100 }] ∧
    score.Score ["dist-linux-amd64.pem"]
        { OS := ["linux"], Arch := ["amd64"], Extensions := ["pem", "pub"] } =
      [{ Key := "dist-linux-amd64.pem", Value := 110 }] := by
  decide

/-- C3: `Score` returns one entry per filename, in the order of the input: the
result has the length of `names`, and the key of its i-th entry is the i-th
name; on the checksum scenario of `TestScore` the keys come back in the input
order with the values 30, 0, 0. -/
theorem Score_preserves_length_and_order (names : List String) (opts : score.Options) :
    (score.Score names opts).length = names.length ∧
      (score.Score names opts).map score.Sorted.Key = names ∧
      (∀ i : Nat, ((score.Score names opts)[i]?).map score.Sorted.Key = names[i]?) ∧
      score.Score ["checksums.txt", "SHA256SUMS", "SHASUMS"]
          { OS := [], Arch := [], Extensions := ["txt"], Names := ["checksums"] } =
        [{ Key := "checksums.txt", Value := 30 }, { Key := "SHA256SUMS", Value := 0 },
          { Key := "SHASUMS", Value := 0 }] := by
  have hmap : (score.Score names opts).map score.Sorted.Key = names := by
    induction names with
    | nil => rfl
    | cons n rest ih => simp [score.Score, ih]
  refine ⟨?_, hmap, ?_, by decide⟩
  · have h := congrArg List.length hmap
    simpa using h
  · intro i
    rw [← List.getElem?_map, hmap]

end Distillery
